import Mathlib

/-
Verification of the composable asynchronous execution engine described by the
cpp-async-guider material (NVIDIA stdexec senders model) against its example
programs.  The engine itself (senders, receivers, combinators, sync_wait) is
not part of the repository sources; following the specification we model it
here: completion signals are a tagged union of Value(payloads), Error(reason)
and Stopped, senders are an inert tree of composition tags, and each
combinator's completion logic is translated from its specified contract.
The concrete pipeline stages (fetch_data, filter_even, square, sum), the
mutable retry counter and the lambdas chained onto schedule() are translated
directly from the example sources.
-/

namespace AsyncGuide

/-- Opaque error payload carried on the error channel (the C++ code throws
std::runtime_error with a message). -/
abbrev Err := String

/-- Values flowing through the examples: ints, vectors of ints, strings. -/
inductive Val where
  | int (n : Int)
  | listI (l : List Int)
  | str (s : String)
deriving DecidableEq

/-- Modelled from the spec: CompletionSignal, the tagged union
Value(payload...) / Error(reason) / Stopped.  A value completion carries the
list of payload values handed to set_value (possibly empty: Sender<void>). -/
inductive Sig where
  | value (vs : List Val)
  | error (e : Err)
  | stopped
deriving DecidableEq

/-- True exactly on value completions. -/
def isValueSig : Sig → Bool
  | .value _ => true
  | _ => false

/-- True exactly on error completions. -/
def isErrorSig : Sig → Bool
  | .error _ => true
  | _ => false

/-- Payload of a value completion, empty for the other channels. -/
def payloadOf : Sig → List Val
  | .value vs => vs
  | _ => []

/-- Modelled from the spec: the completion step of `then(sender, fn)`.  On an
upstream value completion the user function is invoked on the payloads; a
raised reason becomes an error completion; error and stopped pass through
unchanged. -/
def thenStep (f : List Val → Except Err Val) : Sig → Sig
  | .value vs =>
      match f vs with
      | .ok u => .value [u]
      | .error e => .error e
  | .error e => .error e
  | .stopped => .stopped

/-- Instrumented version of `thenStep` that also counts how often the user
function is invoked. -/
def thenStepCount (f : List Val → Except Err Val) : Sig → Sig × Nat
  | .value vs => (thenStep f (.value vs), 1)
  | .error e => (.error e, 0)
  | .stopped => (.stopped, 0)

/-- Modelled from the spec: the completion logic of `when_all(s1..sn)`.
`sigs` lists the children's completions in positional order; `ord` is the
order in which the children actually complete (a permutation of the child
indexes, left unspecified by the engine).  Arrivals are inspected in
completion order; the first non-value arrival is forwarded, and if every
child completes with a value the payloads are read back in positional
order. -/
def whenAllRun (sigs : List Sig) (ord : List Nat) : Sig :=
  match (ord.map (fun i => sigs.getD i .stopped)).find? (fun s => !isValueSig s) with
  | some bad => bad
  | none =>
      .value ((List.range sigs.length).map (fun i => payloadOf (sigs.getD i .stopped))).flatten

/-- Modelled from the spec: `retry(sender_factory, n)` with the factory's
attempt outcomes given by `g` (attempt numbers start at 1).  Arguments are
the next attempt number and the remaining attempt budget; the result pairs
the final completion with the number of factory invocations made.  On an
error with budget left a fresh attempt is made; value or stopped completions
pass through immediately; the last error is forwarded when the budget is
exhausted. -/
def retryRunCount (g : Nat → Sig) : Nat → Nat → Sig × Nat
  | _, 0 => (.stopped, 0)
  | i, 1 => (g i, 1)
  | i, m + 2 =>
      if isErrorSig (g i) then
        let p := retryRunCount g (i + 1) (m + 1)
        (p.1, p.2 + 1)
      else (g i, 1)

/-- Modelled from the spec: `retry(factory, n)` starting at attempt 1. -/
def retryRun (g : Nat → Sig) (n : Nat) : Sig × Nat := retryRunCount g 1 n

/-- Sequential retry logic over the list of attempt outcomes: forward the
first non-error completion, or the last attempt's completion when every
attempt errors. -/
def retryOutcome : List Sig → Sig
  | [] => .stopped
  | [s] => s
  | s :: r :: rest => if isErrorSig s then retryOutcome (r :: rest) else s

/- ===== The sender tree (spec section 3: a composition tag plus captured
sub-senders and closures). ===== -/

/-- Modelled from the spec: a sender is an immutable description — a leaf
(`just`, an erroring leaf, a stopped leaf, `schedule()`), a then-node, a
when_all-node or a retry-node (attempts listed as first attempt plus the
remaining freshly-constructed attempts, so a retry always has at least one
attempt). -/
inductive Sender where
  | justS (vs : List Val)
  | failS (e : Err)
  | stopS
  | scheduleS
  | thenS (s : Sender) (f : List Val → Except Err Val)
  | whenAllS (cs : List Sender)
  | retryS (a : Sender) (rest : List Sender)

mutual
/-- The single completion signal a started sender delivers, by the
combinator contracts of the spec (when_all read in canonical positional
order). -/
def run : Sender → Sig
  | .justS vs => .value vs
  | .failS e => .error e
  | .stopS => .stopped
  | .scheduleS => .value []
  | .thenS s f => thenStep f (run s)
  | .whenAllS cs => whenAllRun (runList cs) (List.range cs.length)
  | .retryS a rest => retryOutcome (run a :: runList rest)

/-- Completions of a list of child senders, in positional order. -/
def runList : List Sender → List Sig
  | [] => []
  | c :: cs => run c :: runList cs
end

/-- Emission logic of a when_all node as seen by its downstream receiver:
it fires exactly when every child has delivered at least one signal,
combining the children's first signals. -/
def whenAllEmit (ds : List (List Sig)) : List Sig :=
  if ds.all (fun d => !d.isEmpty) then
    [whenAllRun (ds.map (fun d => d.headD .stopped)) (List.range ds.length)]
  else []

/-- Emission logic of a retry node as seen by its downstream receiver:
an attempt's error signal triggers the next attempt while budget remains,
the final attempt's signals are forwarded as delivered, and any non-error
signal is forwarded at once. -/
def retryEmit : List (List Sig) → List Sig
  | [] => []
  | [d] => d
  | d :: r :: rest =>
      match d.head? with
      | none => []
      | some s => if isErrorSig s then retryEmit (r :: rest) else [s]

mutual
/-- The sequence of completion signals the downstream receiver of a sender
observes, node by node: a leaf delivers its own single signal, a then-node
translates every upstream signal it receives, a when_all-node fires once all
children have quiesced, a retry-node forwards per its budget. -/
def deliver : Sender → List Sig
  | .justS vs => [.value vs]
  | .failS e => [.error e]
  | .stopS => [.stopped]
  | .scheduleS => [.value []]
  | .thenS s f => (deliver s).map (thenStep f)
  | .whenAllS cs => whenAllEmit (deliverList cs)
  | .retryS a rest => retryEmit (deliver a :: deliverList rest)

/-- Delivered signal sequences of a list of child senders. -/
def deliverList : List Sender → List (List Sig)
  | [] => []
  | c :: cs => deliver c :: deliverList cs
end

/-- Modelled from the spec: the outcome of sync_wait — a value result, an
error carrying the reason, or a distinct Stopped outcome. -/
inductive SyncResult where
  | ok (vs : List Val)
  | err (e : Err)
  | stoppedR
deriving DecidableEq

/-- Modelled from the spec: `sync_wait` blocks until the root operation
state completes and surfaces the three completion channels as
distinguishable outcomes. -/
def syncWait (s : Sender) : SyncResult :=
  match run s with
  | .value vs => .ok vs
  | .error e => .err e
  | .stopped => .stoppedR

/- ===== Concrete functions translated from the example sources. ===== -/

/-- From the data-pipeline example: fetch_data returns the vector 1..10. -/
def fetch_data : List Int := [1, 2, 3, 4, 5, 6, 7, 8, 9, 10]

/-- From the data-pipeline example: filter_even keeps, in order, the
elements with x % 2 == 0 (the push_back loop). -/
def filter_even : List Int → List Int
  | [] => []
  | x :: xs => if x % 2 == 0 then x :: filter_even xs else filter_even xs

/-- From the data-pipeline example: square maps each element to x * x in
place. -/
def square (data : List Int) : List Int := data.map (fun x => x * x)

/-- The accumulation loop of sum: total starts at 0 and each element is
added in order. -/
def sumGo : Int → List Int → Int
  | total, [] => total
  | total, x :: xs => sumGo (total + x) xs

/-- From the data-pipeline example: sum accumulates the elements with
integer addition starting from 0. -/
def sum (data : List Int) : Int := sumGo 0 data

/-- fetch_data as a then-continuation: the C++ function takes no arguments,
so it accepts exactly the empty payload list. -/
def fetchF : List Val → Except Err Val
  | [] => .ok (.listI fetch_data)
  | _ => .error "arity mismatch"

/-- filter_even as a then-continuation on a single vector payload. -/
def filterF : List Val → Except Err Val
  | [.listI l] => .ok (.listI (filter_even l))
  | _ => .error "arity mismatch"

/-- square as a then-continuation on a single vector payload. -/
def squareF : List Val → Except Err Val
  | [.listI l] => .ok (.listI (square l))
  | _ => .error "arity mismatch"

/-- sum as a then-continuation on a single vector payload. -/
def sumF : List Val → Except Err Val
  | [.listI l] => .ok (.int (sum l))
  | _ => .error "arity mismatch"

/-- The data-pipeline sender from the example main:
just() | then(fetch_data) | then(filter_even) | then(square) | then(sum). -/
def pipeline : Sender :=
  .thenS (.thenS (.thenS (.thenS (.justS []) fetchF) filterF) squareF) sumF

/-- The first lambda of the basic example, chained directly onto
schedule(sched): it requires exactly one int argument i and returns i * i. -/
def part001Square : List Val → Except Err Val
  | [.int i] => .ok (.int (i * i))
  | _ => .error "arity mismatch"

/-- One invocation of the mutable lambda of the reliable-api-call example:
given the captured counter i it first increments it, then passes the new
value as the attempt argument; the result pairs the new counter with the
argument handed to unreliable_network_call. -/
def lambdaInvoke (i : Nat) : Nat × Nat := (i + 1, i + 1)

/-- State of the mutable lambda after k invocations together with the
attempt arguments passed so far; the captured counter starts at 0. -/
def invokeTrace : Nat → Nat × List Nat
  | 0 => (0, [])
  | k + 1 =>
      let p := invokeTrace k
      let q := lambdaInvoke p.1
      (q.1, p.2 ++ [q.2])

/-- From the reliable-api-call example: the deterministic part of
unreliable_network_call, with the random draw r made explicit — a draw of
at most 3 raises a network timeout, otherwise the call returns r * 10. -/
def unreliable_network_call (_attempt : Nat) (r : Int) : Except Err Int :=
  if r ≤ 3 then .error "Network timeout" else .ok (r * 10)

/- ===== Basic equations and helper lemmas. ===== -/

theorem runList_eq_map (cs : List Sender) : runList cs = cs.map run := by
  induction cs with
  | nil => rfl
  | cons c cs ih => simp [runList, ih]

theorem deliverList_eq_map (cs : List Sender) : deliverList cs = cs.map deliver := by
  induction cs with
  | nil => rfl
  | cons c cs ih => simp [deliverList, ih]

theorem range_map_getD (l : List α) (d : α) (f : α → β) :
    (List.range l.length).map (fun i => f (l.getD i d)) = l.map f := by
  induction l with
  | nil => rfl
  | cons a l ih =>
      rw [List.length_cons, List.range_succ_eq_map]
      simp only [List.map_cons, List.map_map, List.getD_cons_zero]
      refine congrArg (f a :: ·) ?_
      calc (List.range l.length).map ((fun i => f ((a :: l).getD i d)) ∘ Nat.succ)
          = (List.range l.length).map (fun i => f (l.getD i d)) := by
            refine List.map_congr_left ?_
            intro i _
            simp [List.getD_cons_succ]
        _ = l.map f := ih

theorem whenAllEmit_singletons (xs : List Sig) :
    whenAllEmit (xs.map (fun x => [x])) = [whenAllRun xs (List.range xs.length)] := by
  have h2 : (xs.map (fun x => [x])).map (fun d => d.headD Sig.stopped) = xs := by
    induction xs with
    | nil => rfl
    | cons a l ih => simp only [List.map_cons, List.headD_cons]; rw [ih]
  have h1 : ((xs.map fun x => [x]).all fun d => !d.isEmpty) = true := by
    simp [List.all_eq_true]
  simp only [whenAllEmit, h1, if_true, List.length_map, h2]

theorem retryEmit_singletons (x : Sig) (xs : List Sig) :
    retryEmit ((x :: xs).map (fun s => [s])) = [retryOutcome (x :: xs)] := by
  induction xs generalizing x with
  | nil => rfl
  | cons y ys ih =>
      simp only [List.map_cons, retryEmit, List.head?_cons, retryOutcome]
      rcases h : isErrorSig x with _ | _
      · simp [h]
      · simpa [h] using ih y

theorem deliver_eq_run_aux : ∀ (n : Nat) (s : Sender), sizeOf s < n → deliver s = [run s] := by
  intro n
  induction n with
  | zero => intro s h; exact absurd h (Nat.not_lt_zero _)
  | succ n ih =>
      intro s hs
      cases s with
      | justS vs => rfl
      | failS e => rfl
      | stopS => rfl
      | scheduleS => rfl
      | thenS s f =>
          have hlt : sizeOf s < n := by simp at hs; omega
          show (deliver s).map (thenStep f) = [run (.thenS s f)]
          rw [ih s hlt]
          rfl
      | whenAllS cs =>
          have hcs : sizeOf cs < n := by simp at hs; omega
          have hc : ∀ c ∈ cs, deliver c = [run c] := by
            intro c hcm
            exact ih c (lt_trans (List.sizeOf_lt_of_mem hcm) hcs)
          show whenAllEmit (deliverList cs) = [run (.whenAllS cs)]
          rw [deliverList_eq_map, List.map_congr_left hc,
            show cs.map (fun c => [run c]) = (cs.map run).map (fun x => [x]) by
              simp [List.map_map],
            whenAllEmit_singletons]
          simp [run, runList_eq_map]
      | retryS a rest =>
          have ha : sizeOf a < n := by simp at hs; omega
          have hrest : sizeOf rest < n := by simp at hs; omega
          have hc : ∀ c ∈ rest, deliver c = [run c] := by
            intro c hcm
            exact ih c (lt_trans (List.sizeOf_lt_of_mem hcm) hrest)
          show retryEmit (deliver a :: deliverList rest) = [run (.retryS a rest)]
          rw [ih a ha, deliverList_eq_map, List.map_congr_left hc,
            show [run a] :: rest.map (fun c => [run c])
                = (run a :: rest.map run).map (fun s => [s]) by simp [List.map_map],
            retryEmit_singletons]
          simp [run, runList_eq_map]

/-- C1: for every started operation state, exactly one of the receiver's
three completion entry points (set_value, set_error, set_stopped) is
invoked, exactly once, and no signal follows the first, regardless of which
combinators built the sender tree: the sequence of signals delivered to the
root receiver is exactly the singleton of the operation's completion. -/
theorem completion_delivered_exactly_once (s : Sender) :
    deliver s = [run s] ∧ (deliver s).length = 1 := by
  have h := deliver_eq_run_aux (sizeOf s + 1) s (Nat.lt_succ_self _)
  exact ⟨h, by rw [h]; rfl⟩

/- ===== when_all: positional ordering, independence of completion order. ===== -/

theorem whenAllRun_all_values (sigs : List Sig) (ord : List Nat)
    (hperm : List.Perm ord (List.range sigs.length))
    (hval : ∀ s ∈ sigs, isValueSig s = true) :
    whenAllRun sigs ord = .value ((sigs.map payloadOf).flatten) := by
  have hnone : (ord.map (fun i => sigs.getD i .stopped)).find? (fun s => !isValueSig s) = none := by
    rw [List.find?_eq_none]
    intro x hx
    rcases List.mem_map.mp hx with ⟨i, hi, rfl⟩
    have hilt : i < sigs.length := List.mem_range.mp (hperm.mem_iff.mp hi)
    rw [List.getD_eq_getElem sigs .stopped hilt]
    simp [hval _ (List.getElem_mem hilt)]
  rw [whenAllRun, hnone]
  rw [range_map_getD sigs .stopped payloadOf]

theorem payload_map_value (vs : List (List Val)) :
    (vs.map Sig.value).map payloadOf = vs := by
  induction vs with
  | nil => rfl
  | cons v vs ih => simp only [List.map_cons, payloadOf]; rw [ih]

/-- C2: when all children of when_all complete with a value, the combinator
completes with the children's payloads joined in the original positional
order of its arguments — for every completion order of the workers (any
permutation of the child indexes); it completes with a value only if every
child completes with a value; and the concrete scenario of children
computing fn = x * x on inputs 0, 1, 2 yields the tuple (0, 1, 4) under
every completion order. -/
theorem whenAll_positional_values (vs : List (List Val)) (sigs : List Sig) (ord : List Nat)
    (hperm : List.Perm ord (List.range sigs.length)) :
    (sigs = vs.map Sig.value → whenAllRun sigs ord = .value vs.flatten)
    ∧ (∀ ws, whenAllRun sigs ord = .value ws → ∀ s ∈ sigs, isValueSig s = true)
    ∧ (sigs = [Sig.value [.int (0 * 0)], Sig.value [.int (1 * 1)], Sig.value [.int (2 * 2)]] →
        whenAllRun sigs ord = .value [.int 0, .int 1, .int 4]) := by
  refine ⟨?_, ?_, ?_⟩
  · rintro rfl
    rw [whenAllRun_all_values _ _ hperm (by intro s hs; rcases List.mem_map.mp hs with ⟨v, _, rfl⟩; rfl),
      payload_map_value]
  · intro ws hw s hs
    rcases List.mem_iff_getElem.mp hs with ⟨i, hilt, rfl⟩
    have hiord : i ∈ ord := hperm.mem_iff.mpr (List.mem_range.mpr hilt)
    have harr : sigs.getD i .stopped ∈ ord.map (fun j => sigs.getD j .stopped) :=
      List.mem_map.mpr ⟨i, hiord, rfl⟩
    rcases hf : (ord.map (fun j => sigs.getD j .stopped)).find? (fun s => !isValueSig s) with _ | bad
    · have := List.find?_eq_none.mp hf _ harr
      rw [List.getD_eq_getElem sigs .stopped hilt] at this
      simpa using this
    · rw [whenAllRun, hf] at hw
      have hw2 : bad = Sig.value ws := hw
      have hbad := List.find?_some hf
      rw [hw2] at hbad
      simp [isValueSig] at hbad
  · rintro rfl
    rw [whenAllRun_all_values _ _ hperm (by decide)]
    rfl

/-- Witness for C2 at a concrete completion order: children 0, 1, 2
completing in the order 2, 0, 1 still produce the positional tuple. -/
theorem whenAll_positional_values_witness :
    whenAllRun [Sig.value [.int 0], Sig.value [.int 1], Sig.value [.int 4]] [2, 0, 1]
        = .value [.int 0, .int 1, .int 4]
    ∧ whenAllRun [Sig.value [.int (0 * 0)], Sig.value [.int (1 * 1)], Sig.value [.int (2 * 2)]]
        [2, 0, 1] = .value [.int 0, .int 1, .int 4] := by
  have h := whenAll_positional_values [[Val.int 0], [Val.int 1], [Val.int 4]]
    [Sig.value [.int 0], Sig.value [.int 1], Sig.value [.int 4]] [2, 0, 1] (by decide)
  have h2 := whenAll_positional_values [[Val.int 0], [Val.int 1], [Val.int 4]]
    [Sig.value [.int (0 * 0)], Sig.value [.int (1 * 1)], Sig.value [.int (2 * 2)]] [2, 0, 1]
    (by decide)
  exact ⟨h.1 (by decide), h2.2.2 rfl⟩

/- ===== retry: attempt counting and pass-through. ===== -/

theorem retry_go_success (m : Nat) : ∀ (i : Nat) (g : Nat → Sig) (v : List Val),
    (∀ j, i ≤ j → j < i + m → isErrorSig (g j) = true) → g (i + m) = .value v →
    retryRunCount g i (m + 1) = (.value v, m + 1) := by
  induction m with
  | zero =>
      intro i g v _ hv
      rw [Nat.add_zero] at hv
      simp [retryRunCount, hv]
  | succ m ih =>
      intro i g v herr hv
      have hi : isErrorSig (g i) = true := herr i (Nat.le_refl i) (by omega)
      have hrec := ih (i + 1) g v (fun j h1 h2 => herr j (by omega) (by omega))
        (by rw [show i + 1 + m = i + (m + 1) from by omega]; exact hv)
      simp only [retryRunCount, hi, if_true, hrec]

theorem retry_go_fail (m : Nat) : ∀ (i : Nat) (g : Nat → Sig) (e : Nat → Err),
    (∀ j, g j = .error (e j)) →
    retryRunCount g i (m + 1) = (.error (e (i + m)), m + 1) := by
  induction m with
  | zero =>
      intro i g e herr
      simp [retryRunCount, herr i]
  | succ m ih =>
      intro i g e herr
      have hi : isErrorSig (g i) = true := by rw [herr i]; rfl
      have hrec := ih (i + 1) g e herr
      simp only [retryRunCount, hi, if_true, hrec]
      rw [show i + 1 + m = i + (m + 1) from by omega]

/-- C3: for every bound k at least 1, retry over a factory whose attempts
fail exactly k - 1 times and then succeed completes with the success value
after exactly k factory invocations; over a factory whose attempts always
fail it forwards the final error after exactly k invocations; and a first
attempt that does not complete with an error (value or stopped) passes
through immediately, after exactly one invocation. -/
theorem retry_attempt_semantics (k : Nat) (g : Nat → Sig) (v : List Val) (e : Nat → Err)
    (hk : 1 ≤ k) :
    ((∀ j, 1 ≤ j → j < k → g j = .error (e j)) → g k = .value v →
        retryRun g k = (.value v, k))
    ∧ ((∀ j, g j = .error (e j)) → retryRun g k = (.error (e k), k))
    ∧ (isErrorSig (g 1) = false → retryRun g k = (g 1, 1)) := by
  obtain ⟨m, rfl⟩ : ∃ m, k = m + 1 := ⟨k - 1, by omega⟩
  refine ⟨?_, ?_, ?_⟩
  · intro herr hv
    have h := retry_go_success m 1 g v
      (fun j h1 h2 => by rw [herr j h1 (by omega)]; rfl)
      (by rw [show 1 + m = m + 1 from by omega]; exact hv)
    exact h
  · intro herr
    have h := retry_go_fail m 1 g e herr
    rw [show 1 + m = m + 1 from by omega] at h
    exact h
  · intro hne
    cases m with
    | zero => rfl
    | succ m => simp [retryRun, retryRunCount, hne]

/-- Witness for C3: with bound 3, attempts failing twice then succeeding
yield the success value in exactly 3 invocations, and an always-failing
factory with bound 2 forwards the final error in exactly 2 invocations. -/
theorem retry_attempt_semantics_witness :
    retryRun (fun j => if j < 3 then .error "Network timeout" else .value [.int 70]) 3
        = (.value [.int 70], 3)
    ∧ retryRun (fun _ => Sig.error "Network timeout") 2 = (.error "Network timeout", 2) := by
  constructor
  · exact (retry_attempt_semantics 3 _ [.int 70] (fun _ => "Network timeout")
      (by norm_num)).1 (by intro j h1 h2; simp [h2]) rfl
  · exact (retry_attempt_semantics 2 _ [] (fun _ => "Network timeout") (by norm_num)).2.1
      (fun j => rfl)

/- ===== then: value transform, raise-to-error, pass-through. ===== -/

/-- C4: for every continuation fn and upstream completion — if the upstream
completes with a value, fn is invoked on the payloads and its result is the
value completion; if fn raises, the raised reason is forwarded as an error
completion instead of a value; error and stopped completions are forwarded
unchanged with fn invoked zero times (it is invoked exactly once on a value
completion); and a then-node's completion is exactly this step applied to
its child's completion. -/
theorem then_signal_semantics (f : List Val → Except Err Val) (vs : List Val) (e : Err) :
    (∀ u, f vs = .ok u → thenStep f (.value vs) = .value [u])
    ∧ (∀ e2, f vs = .error e2 → thenStep f (.value vs) = .error e2)
    ∧ (thenStep f (.error e) = .error e ∧ (thenStepCount f (.error e)).2 = 0)
    ∧ (thenStep f .stopped = .stopped ∧ (thenStepCount f .stopped).2 = 0)
    ∧ (∀ vs2, (thenStepCount f (.value vs2)).2 = 1)
    ∧ (∀ s : Sender, run (.thenS s f) = thenStep f (run s)) := by
  refine ⟨?_, ?_, ⟨rfl, rfl⟩, ⟨rfl, rfl⟩, fun _ => rfl, fun _ => rfl⟩
  · intro u hu
    simp [thenStep, hu]
  · intro e2 he
    simp [thenStep, he]

/-- Witness for C4 at the reliable-api-call continuation: a successful draw
(r = 7) is transformed into the value 70, a failing draw (r = 2) raises and
the reason is forwarded as an error. -/
theorem then_signal_semantics_witness :
    thenStep (fun _ => (unreliable_network_call 1 7).map Val.int) (.value [])
        = .value [.int 70]
    ∧ thenStep (fun _ => (unreliable_network_call 1 2).map Val.int) (.value [])
        = .error "Network timeout" := by
  constructor
  · exact (then_signal_semantics (fun _ => (unreliable_network_call 1 7).map Val.int)
      [] "x").1 (.int 70) rfl
  · exact (then_signal_semantics (fun _ => (unreliable_network_call 1 2).map Val.int)
      [] "x").2.1 "Network timeout" rfl

/- ===== The data pipeline and sequential composition. ===== -/

/-- C5: sync_wait of the pipeline
just() | then(fetch_data) | then(filter_even) | then(square) | then(sum)
deterministically completes with the value 220. -/
theorem pipeline_sum_squared_evens : syncWait pipeline = .ok [.int 220] := by decide

/-- C6: for every payload n and every pair of non-raising continuations f
and g, sync_wait(just(n) | then(f) | then(g)) is the value completion
g(f(n)): sequential composition of then-nodes composes the functions. -/
theorem then_then_composes (n : List Val) (f g : List Val → Val) :
    syncWait (.thenS (.thenS (.justS n) (fun vs => .ok (f vs))) (fun vs => .ok (g vs)))
        = .ok [g [f n]] := rfl

/-- C7: for every sender, sync_wait returns exactly one of three mutually
distinguishable outcomes — a value result, an error carrying the reason, or
the distinct Stopped outcome — so a caller can always tell a failed
operation from a canceled one. -/
theorem syncWait_trichotomy (s : Sender) :
    ((∃ vs, syncWait s = .ok vs) ∧ (∀ e, syncWait s ≠ .err e) ∧ syncWait s ≠ .stoppedR)
    ∨ ((∃ e, syncWait s = .err e) ∧ (∀ vs, syncWait s ≠ .ok vs) ∧ syncWait s ≠ .stoppedR)
    ∨ (syncWait s = .stoppedR ∧ (∀ vs, syncWait s ≠ .ok vs) ∧ (∀ e, syncWait s ≠ .err e)) := by
  rcases h : run s with vs | e
  · exact Or.inl ⟨⟨vs, by simp [syncWait, h]⟩, fun e => by simp [syncWait, h],
      by simp [syncWait, h]⟩
  · exact Or.inr (Or.inl ⟨⟨e, by simp [syncWait, h]⟩, fun vs => by simp [syncWait, h],
      by simp [syncWait, h]⟩)
  · exact Or.inr (Or.inr ⟨by simp [syncWait, h], fun vs => by simp [syncWait, h],
      fun e => by simp [syncWait, h]⟩)

/- ===== schedule(): a Sender of no values, and the example's chained
lambda. ===== -/

/-- C8 (code bug): schedule() completes with no value, and a then-node's
continuation receives exactly the upstream payloads — zero arguments here.
The basic example chains the one-int-argument lambda i * i directly onto
schedule(), so at that input the chain cannot hand the lambda the int it
requires: invoking it on the empty payload list is an arity mismatch rather
than the value completion the program then unpacks. -/
theorem schedule_then_arity_bug :
    run .scheduleS = .value []
    ∧ (∀ f, run (.thenS .scheduleS f) = thenStep f (.value []))
    ∧ run (.thenS .scheduleS part001Square) = .error "arity mismatch" :=
  ⟨rfl, fun _ => rfl, rfl⟩

/- ===== The pipeline stage functions on their own. ===== -/

theorem filter_even_eq_filter (l : List Int) :
    filter_even l = l.filter (fun x => decide (Even x)) := by
  induction l with
  | nil => rfl
  | cons x xs ih =>
      rw [filter_even, List.filter_cons]
      by_cases h : Even x
      · have hx : (x % 2 == 0) = true := by
          rw [Int.even_iff] at h
          simp [h]
        simp [hx, h, ih]
      · have hx : (x % 2 == 0) = false := by
          rw [Int.even_iff] at h
          simp [h]
        simp [hx, h, ih]

theorem sumGo_eq_foldl (l : List Int) : ∀ t : Int, sumGo t l = l.foldl (· + ·) t := by
  induction l with
  | nil => intro t; rfl
  | cons x xs ih => intro t; rw [sumGo, List.foldl_cons]; exact ih (t + x)

theorem sumGo_eq_add_sum (l : List Int) : ∀ t : Int, sumGo t l = t + l.sum := by
  induction l with
  | nil => intro t; simp [sumGo]
  | cons x xs ih =>
      intro t
      rw [sumGo, ih (t + x), List.sum_cons, add_assoc]

/-- C9: filter_even keeps exactly the even elements in their original
relative order; square maps each element to its square, preserving length
and order; sum is the fold of integer addition over the list; hence the
composition equals the sum of x * x over the even elements of the input. -/
theorem list_stage_functions_correct (l : List Int) :
    filter_even l = l.filter (fun x => decide (Even x))
    ∧ (∀ x ∈ filter_even l, Even x)
    ∧ square l = l.map (fun x => x * x)
    ∧ (square l).length = l.length
    ∧ sum l = l.foldl (· + ·) 0
    ∧ sum (square (filter_even l))
        = ((l.filter (fun x => decide (Even x))).map (fun x => x * x)).sum := by
  refine ⟨filter_even_eq_filter l, ?_, rfl, List.length_map l _, sumGo_eq_foldl l 0, ?_⟩
  · intro x hx
    rw [filter_even_eq_filter l] at hx
    simpa using (List.mem_filter.mp hx).2
  · rw [sum, sumGo_eq_add_sum, zero_add, filter_even_eq_filter l]
    rfl

/- ===== The retry counter of the reliable-api-call example. ===== -/

/-- C10: the mutable lambda increments its captured counter by exactly one
per invocation before calling unreliable_network_call: after k invocations
the counter is k and the attempt arguments passed so far are 1, 2, ..., k;
the j-th invocation receives attempt argument exactly j; and the observed
sequence of attempt numbers is strictly increasing. -/
theorem attempt_counter_strictly_increasing (k : Nat) :
    invokeTrace k = (k, (List.range k).map (fun j => j + 1))
    ∧ (∀ j, 1 ≤ j → j ≤ k → (invokeTrace k).2.getD (j - 1) 0 = j)
    ∧ List.Pairwise (· < ·) (invokeTrace k).2 := by
  have h : invokeTrace k = (k, (List.range k).map (fun j => j + 1)) := by
    induction k with
    | zero => rfl
    | succ k ih => rw [invokeTrace, ih]; simp [lambdaInvoke, List.range_succ]
  refine ⟨h, ?_, ?_⟩
  · intro j h1 h2
    rw [h]
    have hlt : j - 1 < ((List.range k).map (fun j => j + 1)).length := by
      simpa using by omega
    rw [List.getD_eq_getElem _ 0 hlt]
    simp only [List.getElem_map, List.getElem_range]
    omega
  · rw [h]
    exact List.Pairwise.map _ (fun a b hab => by omega) (List.pairwise_lt_range k)

/-- Witness for C10 at k = 5: the counter reaches 5, the arguments are
1..5, and the third invocation receives attempt number 3. -/
theorem attempt_counter_strictly_increasing_witness :
    invokeTrace 5 = (5, [1, 2, 3, 4, 5])
    ∧ (invokeTrace 5).2.getD 2 0 = 3 := by
  have h := attempt_counter_strictly_increasing 5
  exact ⟨by rw [h.1]; rfl, h.2.1 3 (by norm_num) (by norm_num)⟩

end AsyncGuide
